import Mathlib

/-!
# Secure Aggregation (Bonawitz et al.) — verification of the protocol core

Shallow embedding of `src/client.js`, `src/server.js` and `src/helper.js` of the
`Federated-Learning-Secure-Agg` repository.

Modelling conventions:
* Client identifiers (UUID strings, totally ordered) are modelled as `Nat`,
  JS object maps (whose string keys iterate in insertion order) as `List`s.
* JS numbers that the source forces through a 4-byte `DataView`
  (`view.setInt32` / `view.getInt32`) are modelled as `Int` reduced by
  `toInt32` at every store, exactly as the `DataView` does.
* Secret gradients (JS floats) are modelled as rationals; the source's
  `Number.parseInt(secretValue.toFixed(4) * 10**4)` fixed-point conversion is
  modelled as `round (s * 10^4)`.
* The cryptographic layer (`helper.js`) is abstracted by its contract: the
  first draw of the pairwise PRNG seeded from the Diffie–Hellman shared seed of
  clients `i` and `j` is `pairMask i j`, and the first draw of the PRNG seeded
  from client `i`'s self-mask seed is `selfMask i`.  The symmetric-DH and
  exact-Shamir-reconstruction assumptions of the claims appear as hypotheses
  (symmetry of `pairMask`) or are implicit in using the same function on the
  client and the server side.
-/

namespace SecureAgg

/-! ## 32-bit wrapping store (`view.setInt32` / `view.getInt32`)

`DataView.setInt32` stores its argument modulo 2^32 and `getInt32` reads it
back as a signed value in `[-2^31, 2^31)`.  `2^31 = 2147483648`,
`2^32 = 4294967296`. -/

/-- The value read back by `getInt32` after `setInt32(0, x)`: `x` reduced to
the signed 32-bit range `[-2147483648, 2147483648)`. -/
def toInt32 (x : Int) : Int :=
  (x + 2147483648) % 4294967296 - 2147483648

theorem toInt32_lb (x : Int) : -2147483648 ≤ toInt32 x := by
  unfold toInt32; omega

theorem toInt32_ub (x : Int) : toInt32 x < 2147483648 := by
  unfold toInt32; omega

theorem toInt32_eq_self {x : Int} (h₁ : -2147483648 ≤ x) (h₂ : x < 2147483648) :
    toInt32 x = x := by
  unfold toInt32; omega

theorem toInt32_emod (x : Int) : toInt32 x % 4294967296 = x % 4294967296 := by
  unfold toInt32; omega

theorem toInt32_congr {x y : Int} (h : x % 4294967296 = y % 4294967296) :
    toInt32 x = toInt32 y := by
  unfold toInt32; omega

theorem toInt32_add_wrap (x y : Int) : toInt32 (toInt32 x + y) = toInt32 (x + y) := by
  unfold toInt32; omega

theorem toInt32_add_wrap_right (x y : Int) : toInt32 (x + toInt32 y) = toInt32 (x + y) := by
  unfold toInt32; omega

theorem toInt32_sub_wrap_right (x y : Int) : toInt32 (x - toInt32 y) = toInt32 (x - y) := by
  unfold toInt32; omega

theorem toInt32_zero : toInt32 0 = 0 := by decide

/-! ## Client-side masking (`client.js`, `computeMaskedInputVector`) -/

/-- The fixed-point conversion of a secret:
`Number.parseInt(this.secretValue.toFixed(4) * (10**4))`, i.e. the secret
rounded to 4 decimals and scaled to an integer. -/
def roundSecret (s : ℚ) : Int := round (s * 10 ^ 4)

/-- One iteration of the pairwise-mask loop of `computeMaskedInputVector`:
`if (id < this.id) acc += mask; else if (id > this.id) acc -= mask`, with the
accumulator passed through the 4-byte `DataView` at every store. -/
def pairTerm (pairMask : Nat → Nat → Nat) (selfId j : Nat) (acc : Int) : Int :=
  if j < selfId then toInt32 (acc + (pairMask selfId j : Int))
  else if selfId < j then toInt32 (acc - (pairMask selfId j : Int))
  else acc

/-- `pm` with the mask of the unordered pair `{i, j}` replaced by `0`: used to
state that this pair's PRNG value contributes nothing to the aggregate. -/
def zeroAtPair (pm : Nat → Nat → Nat) (i j : Nat) : Nat → Nat → Nat :=
  fun a b => if (a = i ∧ b = j) ∨ (a = j ∧ b = i) then 0 else pm a b

/-- The signed pairwise-mask contribution of peer `j` inside client `selfId`'s
masked value: `+mask` when `j < selfId`, `-mask` when `selfId < j`. -/
def signedPair (pairMask : Nat → Nat → Nat) (selfId j : Nat) : Int :=
  if j < selfId then (pairMask selfId j : Int)
  else if selfId < j then -(pairMask selfId j : Int)
  else 0

/-- `Client.computeMaskedInputVector`: starting from a zeroed `DataView`,
add/subtract the pairwise masks of all peers in the local U₂ view, add the
fixed-point secret, then add the self mask; every intermediate value is stored
through `setInt32` (wrapping modulo 2^32). -/
def computeMaskedInputVector (pairMask : Nat → Nat → Nat) (selfMask : Nat → Nat)
    (selfId : Nat) (secret : ℚ) (peersU2 : List Nat) : Int :=
  let acc := peersU2.foldl (fun acc j => pairTerm pairMask selfId j acc) 0
  let acc := toInt32 (acc + roundSecret secret)
  toInt32 (acc + (selfMask selfId : Int))

/-- The masked gradients of all clients, each computed from its peer list
`this.clientListU2` (here: all of U₂ except the client itself). -/
def maskedOf (pairMask : Nat → Nat → Nat) (selfMask : Nat → Nat)
    (secrets : Nat → ℚ) (u2 : List Nat) : Nat → Int :=
  fun i => computeMaskedInputVector pairMask selfMask i (secrets i) (u2.erase i)

/-! ## Server-side accumulation (`server.js`) -/

/-- `Server.collectMaskedGradient`: sum, through a zeroed `DataView`, the
masked gradients of the clients of `clientListU2` that are in `clientIDsU3`. -/
def collectMaskedGradient (masked : Nat → Int) (u2 u3 : List Nat) : Int :=
  u2.foldl (fun acc i => if i ∈ u3 then toInt32 (acc + masked i) else acc) 0

/-- `Server.reconstructDroppedClientsMask`: for every dropped client `d`
(whose seed private key was Shamir-reconstructed) and every U₂ client `j`
that is in U₃, re-derive the pairwise mask of `(d, j)` and add it when
`j < d`, subtract it otherwise; finally add the running aggregate `agg`.
Every store goes through the 4-byte `DataView`. -/
def reconstructDroppedClientsMask (pairMask : Nat → Nat → Nat)
    (deadIds u2 u3 : List Nat) (agg : Int) : Int :=
  let acc := deadIds.foldl (fun acc d =>
    u2.foldl (fun acc j =>
      if j ∈ u3 then
        if j < d then toInt32 (acc + (pairMask d j : Int))
        else toInt32 (acc - (pairMask d j : Int))
      else acc) acc) 0
  toInt32 (acc + agg)

/-- `Server.reconstructAliveClientsMask`: re-seed the PRNG with every
reconstructed self-mask seed of the U₃ clients, sum the first draws through a
zeroed `DataView`, and subtract the total from the aggregate. -/
def reconstructAliveClientsMask (selfMask : Nat → Nat) (u3 : List Nat) (agg : Int) : Int :=
  let acc := u3.foldl (fun acc a => toInt32 ((selfMask a : Int) + acc)) 0
  toInt32 (agg - acc)

/-- One full run of the arithmetic core of the protocol, for a run in which
every client completes round 1 (so U₂ = all clients and every client's local
U₂ view is everyone else) and the clients with `dead i = true` are put down
between round 1 and round 2 (so U₃ = the survivors).  Returns the value of
`Server.round3()`: `(this.agg / 10**4) / this.clientIDsU3.length`. -/
def runProtocol (pairMask : Nat → Nat → Nat) (selfMask : Nat → Nat)
    (ids : List Nat) (secrets : Nat → ℚ) (dead : Nat → Bool) : ℚ :=
  let u3 := ids.filter (fun i => !dead i)
  let masked := maskedOf pairMask selfMask secrets ids
  let s := collectMaskedGradient masked ids u3
  let deadIds := ids.filter (fun i => !(decide (i ∈ u3)))
  let afterDead := reconstructDroppedClientsMask pairMask deadIds ids u3 s
  let agg := reconstructAliveClientsMask selfMask u3 afterDead
  (agg : ℚ) / 10 ^ 4 / (u3.length : ℚ)

/-- `Server.aggregateWithoutSecrecy`: plain (unmasked, unrounded) mean of the
secrets of the `clientList` members that are in `clientIDsU3`. -/
def aggregateWithoutSecrecy (secrets : Nat → ℚ) (clientList u3 : List Nat) : ℚ :=
  let p := clientList.foldl
    (fun (p : ℚ × ℕ) i => if i ∈ u3 then (p.1 + secrets i, p.2 + 1) else p) (0, 0)
  p.1 / (p.2 : ℚ)

/-! ## Error surface and the JS `.length`-on-object quirk

`client.js` and `server.js` throw strings; the spec names them as typed
errors, which we use as constructors.  Several threshold checks compare
`someObject.length` with the threshold where `someObject` is a plain JS object
(not an array): such an object has no `length` property, the read yields
`undefined`, and any `<` comparison involving `undefined` (which converts to
NaN) is `false`. -/

inductive ProtoError where
  | BelowThreshold
  | KeyCollision
  | TooFewClients
  | TooFewCiphertexts
  | MembershipViolation
  | TooFewSurvivors
  | CiphertextMisdirected
  | ReconstructionFailed
  deriving DecidableEq, Repr

/-- `undefined < n` in JS: `undefined` converts to NaN, and every comparison
with NaN is `false`. -/
def jsUndefinedLtNat (_n : Nat) : Bool := false

/-- `n < undefined` in JS: also `false` (NaN comparison). -/
def jsNatLtUndefined (_n : Nat) : Bool := false

/-- `Server.computeU2` (`server.js` lines 75–86): delete the clients that are
down from the (aliased) U₂ view, then test
`this.clientListU2.length < this.threshold`.  `clientListU2` is a plain
object, so `.length` is `undefined` and the test is always `false`: the
`BelowThreshold` throw is dead code. -/
def computeU2 (clientList : List (Nat × Bool)) (threshold : Nat) :
    Except ProtoError (List (Nat × Bool)) :=
  let clientListU2 := clientList.filter (fun c => c.2)
  if jsUndefinedLtNat threshold then .error .BelowThreshold
  else .ok clientListU2

/-- `Server.computeU3` (`server.js` lines 143–157): collect into the array
`clientIDsU3` the ids of the U₂ clients still up.  Unlike `computeU2`,
`clientIDsU3` is a genuine JS array, so the threshold check
`this.clientIDsU3.length < this.threshold` is live: `round2()` throws
`BelowThreshold` when fewer than `threshold` clients survive into U₃. -/
def computeU3 (clientIDsU2 : List Nat) (dead : Nat → Bool) (threshold : Nat) :
    Except ProtoError (List Nat) :=
  if (clientIDsU2.filter (fun i => !dead i)).length < threshold then
    .error .BelowThreshold
  else .ok (clientIDsU2.filter (fun i => !dead i))

/-- Rounds 2–3 of the aggregator with the live threshold checks, for the
C2 scenario (dropouts only between rounds 1 and 2): `round2()` runs
`computeU3` and aborts with `BelowThreshold` when `|U₃| < t` — `round3()`
then never runs; otherwise `round3()` runs `computeU5`, whose up-client scan
re-collects exactly the U₃ members (no client drops after round 2 in this
scenario) and re-applies the same live length check, and finally returns the
unmasked mean (`runProtocol`). -/
def runProtocolChecked (pairMask : Nat → Nat → Nat) (selfMask : Nat → Nat)
    (ids : List Nat) (secrets : Nat → ℚ) (dead : Nat → Bool) (threshold : Nat) :
    Except ProtoError ℚ :=
  match computeU3 ids dead threshold with
  | .error e => .error e
  | .ok u3 =>
    if u3.length < threshold then .error .BelowThreshold
    else .ok (runProtocol pairMask selfMask ids secrets dead)

/-- `Client.receiveClients` (`client.js` lines 70–85): the argument is the
server's `clientList`, a plain object keyed by client id (entries modelled as
`(id, publicKey)`).  `clientList.length` is `undefined`, so the
`TooFewClients` test is always `false`; the collision scan
`for (let i = 0; i < clientList.length; ++i)` never executes its body for the
same reason.  The list is then recorded unconditionally. -/
def receiveClients (threshold : Nat) (clientList : List (Nat × Nat)) :
    Except ProtoError (List (Nat × Nat)) :=
  if jsUndefinedLtNat threshold then .error .TooFewClients
  else if jsNatLtUndefined 0 then .error .KeyCollision
  else .ok clientList

/-- `Client.receiveclientIDsU3` (`client.js` lines 269–287): fail when fewer
than `threshold` ids arrive; compute the ids of U₃ that are not in the local
U₂ view and fail when there is more than one of them (the code expects the
client's own id, never part of `clientListU2`, to be the single allowed one —
it does not check which id it is).  On success, return the recorded
`clientIDsU3` and `IDsinU2NotInU3`. -/
def receiveclientIDsU3 (threshold : Nat) (clientIDsU2 clientIDsU3 : List Nat) :
    Except ProtoError (List Nat × List Nat) :=
  if clientIDsU3.length < threshold then .error .TooFewSurvivors
  else if (clientIDsU3.filter (fun k => !(decide (k ∈ clientIDsU2)))).length > 1 then
    .error .MembershipViolation
  else .ok (clientIDsU3, clientIDsU2.filter (fun k => !(decide (k ∈ clientIDsU3))))

/-! ## Round-1 share indexing (`client.js`, `computePairwiseEncryption` and
`generateCiphertexts`) -/

/-- `Client.computePairwiseEncryption` rebuilds `this.clientList` as a new
object holding only the peers (`clientIteratedID != this.id`), in the
iteration order of the received list. -/
def pairwisePeerList (selfId : Nat) (clientList : List Nat) : List Nat :=
  clientList.filter (fun j => j ≠ selfId)

/-- `Client.generateCiphertexts` (`client.js` lines 152–168): iterate the
(peers-only) `clientList` with `index` starting at 1 and incremented on
every iteration (the `!= this.id` guard is kept although it is always true
after `computePairwiseEncryption`); the iterated peer receives the Shamir
shares with the current index.  Returns the `(recipient, share index)`
assignment and `ownIndex`, the value of `index` after the loop. -/
def generateCiphertexts (selfId : Nat) (clientList : List Nat) :
    List (Nat × Nat) × Nat :=
  let st := clientList.foldl
    (fun (st : List (Nat × Nat) × Nat) j =>
      if j ≠ selfId then ((j, st.2) :: st.1, st.2 + 1) else (st.1, st.2 + 1))
    ([], 1)
  (st.1.reverse, st.2)

/-- The share-index assignment produced in round 1 from the broadcast client
list (the fixed peer ordering, the client itself included). -/
def roundOneIndices (clientList : List Nat) (selfId : Nat) :
    List (Nat × Nat) × Nat :=
  generateCiphertexts selfId (pairwisePeerList selfId clientList)

/-! ## Client state machine (`client.js` rounds and `putDown`) -/

/-- The mutable fields of a `Client` that the round methods touch.  The
cryptographic payloads (key pairs, Shamir share bytes, ciphertexts, decrypted
splits) are carried abstractly. -/
structure ClientState where
  id : Nat
  secretValue : ℚ
  nbClients : Nat
  threshold : Nat
  isUp : Bool
  selfMaskSeed : Option Nat
  secretKeyShamir : Option (List Nat)
  selfMaskSeedShamir : Option (List Nat)
  clientList : List Nat
  clientListU2 : List Nat
  maskedGradient : Option Int
  clientIDsU3 : List Nat
  splits : List (Nat × Nat)
  ownIndex : Option Nat
  deriving DecidableEq

/-- The randomness consumed by `Client.round1` (self-mask seed sample and the
two fresh Shamir sharings). -/
structure Round1Randomness where
  selfMaskSeed : Nat
  keyShares : List Nat
  seedShares : List Nat

/-- `Client.round1`: guarded by `this.isUp`; samples the self-mask seed,
stores both Shamir sharings, rebuilds `clientList` as the peers-only pairwise
map, and records `ownIndex` from `generateCiphertexts`. -/
def clientRound1 (r : Round1Randomness) (s : ClientState) : ClientState :=
  if s.isUp then
    { s with
      selfMaskSeed := some r.selfMaskSeed,
      secretKeyShamir := some r.keyShares,
      selfMaskSeedShamir := some r.seedShares,
      clientList := pairwisePeerList s.id s.clientList,
      ownIndex := some (roundOneIndices s.clientList s.id).2 }
  else s

/-- `Client.round2`: guarded by `this.isUp`; stores the masked input vector. -/
def clientRound2 (pairMask : Nat → Nat → Nat) (selfMask : Nat → Nat)
    (s : ClientState) : ClientState :=
  if s.isUp then
    let m := computeMaskedInputVector pairMask selfMask s.id s.secretValue s.clientListU2
    { s with maskedGradient := some m }
  else s

/-- `Client.round3`: guarded by `this.isUp`; stores the decrypted share
material (`this.splits`), abstracted as a delivered map. -/
def clientRound3 (decrypted : List (Nat × Nat)) (s : ClientState) : ClientState :=
  if s.isUp then { s with splits := decrypted } else s

/-- `Client.putDown`: `this.isUp = false`. -/
def putDown (s : ClientState) : ClientState := { s with isUp := false }

/-! ## Reference aliasing of the U₂ views (C10)

`Client.receiveCiphertexts` and `Server.computeU2` both execute
`this.clientListU2 = this.clientList` — a reference copy — and then `delete`
entries through the `clientListU2` alias.  We model the two fields as
references into a store of objects (an object being its list of keys), so
that the aliasing is explicit. -/

/-- A party's heap: allocated objects (each a key list) and the two fields
holding references into it. -/
structure RefState where
  store : List (List Nat)
  clientList : Nat
  clientListU2 : Option Nat
  deriving DecidableEq

/-- Read the object a reference points to. -/
def readRef (store : List (List Nat)) (r : Nat) : List Nat := store.getD r []

/-- The `for (id in obj) if (!keep(id)) delete obj[id]` loop: iterate the
(snapshot of the) key list, erasing every key that fails the predicate. -/
def deleteLoop (keep : Nat → Bool) (keys obj : List Nat) : List Nat :=
  keys.foldl (fun obj k => if keep k then obj else obj.erase k) obj

/-- `Server.computeU2`'s mutation (`server.js` lines 75–81): alias
`clientListU2` to `clientList` and delete the down clients through the alias
(the `BelowThreshold` check that follows is dead code, see `computeU2`). -/
def computeU2Refs (isUp : Nat → Bool) (s : RefState) : RefState :=
  let r := s.clientList
  let obj := readRef s.store r
  { store := s.store.set r (deleteLoop isUp obj obj),
    clientList := s.clientList,
    clientListU2 := some r }

/-- `Client.receiveCiphertexts`'s mutation (`client.js` lines 195–211): alias
`clientListU2` to `clientList` and delete, through the alias, every peer that
did not deliver a ciphertext. -/
def receiveCiphertextsRefs (hasCiphertext : Nat → Bool) (s : RefState) : RefState :=
  let r := s.clientList
  let obj := readRef s.store r
  { store := s.store.set r (deleteLoop hasCiphertext obj obj),
    clientList := s.clientList,
    clientListU2 := some r }

/-! ## Characterizing the wrapped folds

Each `DataView` accumulation loop equals `toInt32` of the corresponding
unbounded integer sum: per-step wrapping collapses, since `toInt32` only
depends on the argument modulo 2^32. -/

theorem pairTerm_eq_wrap (pm : Nat → Nat → Nat) {selfId x : Nat} (h : x ≠ selfId)
    (a : Int) : pairTerm pm selfId x (toInt32 a) = toInt32 (a + signedPair pm selfId x) := by
  unfold pairTerm signedPair
  rcases Nat.lt_trichotomy x selfId with hlt | heq | hgt
  · simp only [if_pos hlt, toInt32_add_wrap]
  · exact absurd heq h
  · simp only [if_neg (Nat.lt_asymm hgt), if_pos hgt, sub_eq_add_neg, toInt32_add_wrap]

theorem pair_fold_eq (pm : Nat → Nat → Nat) (selfId : Nat) :
    ∀ (l : List Nat), selfId ∉ l → ∀ (a : Int),
      l.foldl (fun acc j => pairTerm pm selfId j acc) (toInt32 a)
        = toInt32 (a + (l.map (signedPair pm selfId)).sum) := by
  intro l
  induction l with
  | nil => intro _ a; simp
  | cons x xs ih =>
    intro hx a
    have hxs : selfId ∉ xs := fun hmem => hx (List.mem_cons_of_mem _ hmem)
    have hne : x ≠ selfId := fun hmem => hx (hmem ▸ List.mem_cons_self _ _)
    simp only [List.foldl_cons, List.map_cons, List.sum_cons]
    rw [pairTerm_eq_wrap pm hne, ih hxs (a + signedPair pm selfId x), add_assoc]

theorem computeMaskedInputVector_eq (pm : Nat → Nat → Nat) (sm : Nat → Nat)
    (selfId : Nat) (secret : ℚ) (peers : List Nat) (h : selfId ∉ peers) :
    computeMaskedInputVector pm sm selfId secret peers
      = toInt32 ((peers.map (signedPair pm selfId)).sum + roundSecret secret
          + (sm selfId : Int)) := by
  unfold computeMaskedInputVector
  have h1 := pair_fold_eq pm selfId peers h 0
  rw [toInt32_zero] at h1
  rw [h1]
  apply toInt32_congr
  unfold toInt32
  omega

theorem collect_fold_eq (masked : Nat → Int) (u3 : List Nat) :
    ∀ (u2 : List Nat) (a : Int),
      u2.foldl (fun acc i => if i ∈ u3 then toInt32 (acc + masked i) else acc) (toInt32 a)
        = toInt32 (a + ((u2.filter (fun i => decide (i ∈ u3))).map masked).sum) := by
  intro u2
  induction u2 with
  | nil => intro a; simp
  | cons x xs ih =>
    intro a
    by_cases hx : x ∈ u3
    · have hd : (x :: xs).filter (fun i => decide (i ∈ u3))
          = x :: xs.filter (fun i => decide (i ∈ u3)) := by
        simp [List.filter_cons, hx]
      rw [hd]
      simp only [List.foldl_cons, if_pos hx, List.map_cons, List.sum_cons]
      rw [toInt32_add_wrap, ih (a + masked x), add_assoc]
    · have hd : (x :: xs).filter (fun i => decide (i ∈ u3))
          = xs.filter (fun i => decide (i ∈ u3)) := by
        simp [List.filter_cons, hx]
      rw [hd]
      simp only [List.foldl_cons, if_neg hx]
      exact ih a

theorem collectMaskedGradient_eq (masked : Nat → Int) (u2 u3 : List Nat) :
    collectMaskedGradient masked u2 u3
      = toInt32 (((u2.filter (fun i => decide (i ∈ u3))).map masked).sum) := by
  unfold collectMaskedGradient
  have h1 := collect_fold_eq masked u3 u2 0
  rw [toInt32_zero] at h1
  rw [h1, zero_add]

/-- The signed pairwise correction that `reconstructDroppedClientsMask`
applies for dropped client `d` and surviving client `j`: `+mask` when
`j < d`, `-mask` otherwise. -/
def deadCorrection (pm : Nat → Nat → Nat) (d j : Nat) : Int :=
  if j < d then (pm d j : Int) else -(pm d j : Int)

theorem dead_inner_fold_eq (pm : Nat → Nat → Nat) (d : Nat) (u3 : List Nat) :
    ∀ (u2 : List Nat) (a : Int),
      u2.foldl (fun acc j =>
        if j ∈ u3 then
          if j < d then toInt32 (acc + (pm d j : Int))
          else toInt32 (acc - (pm d j : Int))
        else acc) (toInt32 a)
        = toInt32 (a + ((u2.filter (fun j => decide (j ∈ u3))).map (deadCorrection pm d)).sum) := by
  intro u2
  induction u2 with
  | nil => intro a; simp
  | cons x xs ih =>
    intro a
    by_cases hx : x ∈ u3
    · have hd : (x :: xs).filter (fun j => decide (j ∈ u3))
          = x :: xs.filter (fun j => decide (j ∈ u3)) := by
        simp [List.filter_cons, hx]
      rw [hd]
      simp only [List.foldl_cons, if_pos hx, List.map_cons, List.sum_cons]
      by_cases hlt : x < d
      · rw [if_pos hlt, toInt32_add_wrap, ih (a + (pm d x : Int))]
        have hc : deadCorrection pm d x = (pm d x : Int) := by
          unfold deadCorrection; rw [if_pos hlt]
        rw [hc, add_assoc]
      · rw [if_neg hlt, sub_eq_add_neg, toInt32_add_wrap, ih (a + -(pm d x : Int))]
        have hc : deadCorrection pm d x = -(pm d x : Int) := by
          unfold deadCorrection; rw [if_neg hlt]
        rw [hc, add_assoc]
    · have hd : (x :: xs).filter (fun j => decide (j ∈ u3))
          = xs.filter (fun j => decide (j ∈ u3)) := by
        simp [List.filter_cons, hx]
      rw [hd]
      simp only [List.foldl_cons, if_neg hx]
      exact ih a

theorem dead_outer_fold_eq (pm : Nat → Nat → Nat) (u2 u3 : List Nat) :
    ∀ (dl : List Nat) (a : Int),
      dl.foldl (fun acc d =>
        u2.foldl (fun acc j =>
          if j ∈ u3 then
            if j < d then toInt32 (acc + (pm d j : Int))
            else toInt32 (acc - (pm d j : Int))
          else acc) acc) (toInt32 a)
        = toInt32 (a + (dl.map (fun d =>
            ((u2.filter (fun j => decide (j ∈ u3))).map (deadCorrection pm d)).sum)).sum) := by
  intro dl
  induction dl with
  | nil => intro a; simp
  | cons d ds ih =>
    intro a
    simp only [List.foldl_cons, List.map_cons, List.sum_cons]
    rw [dead_inner_fold_eq pm d u3 u2 a,
      ih (a + ((u2.filter (fun j => decide (j ∈ u3))).map (deadCorrection pm d)).sum),
      add_assoc]

theorem reconstructDroppedClientsMask_eq (pm : Nat → Nat → Nat)
    (deadIds u2 u3 : List Nat) (agg : Int) :
    reconstructDroppedClientsMask pm deadIds u2 u3 agg
      = toInt32 ((deadIds.map (fun d =>
          ((u2.filter (fun j => decide (j ∈ u3))).map (deadCorrection pm d)).sum)).sum + agg) := by
  unfold reconstructDroppedClientsMask
  have h1 := dead_outer_fold_eq pm u2 u3 deadIds 0
  rw [toInt32_zero] at h1
  rw [h1, zero_add, toInt32_add_wrap]

theorem alive_fold_eq (sm : Nat → Nat) :
    ∀ (u3 : List Nat) (a : Int),
      u3.foldl (fun acc x => toInt32 ((sm x : Int) + acc)) (toInt32 a)
        = toInt32 (a + (u3.map (fun x => (sm x : Int))).sum) := by
  intro u3
  induction u3 with
  | nil => intro a; simp
  | cons x xs ih =>
    intro a
    simp only [List.foldl_cons, List.map_cons, List.sum_cons]
    rw [add_comm ((sm x : Int)) (toInt32 a), toInt32_add_wrap, ih (a + (sm x : Int)),
      add_assoc]

theorem reconstructAliveClientsMask_eq (sm : Nat → Nat) (u3 : List Nat) (agg : Int) :
    reconstructAliveClientsMask sm u3 agg
      = toInt32 (agg - (u3.map (fun x => (sm x : Int))).sum) := by
  unfold reconstructAliveClientsMask
  have h1 := alive_fold_eq sm u3 0
  rw [toInt32_zero] at h1
  rw [h1, zero_add, toInt32_sub_wrap_right]

theorem list_sum_emod_congr {α : Type} (f g : α → Int) :
    ∀ (l : List α), (∀ x ∈ l, f x % 4294967296 = g x % 4294967296) →
      (l.map f).sum % 4294967296 = (l.map g).sum % 4294967296 := by
  intro l
  induction l with
  | nil => simp
  | cons x xs ih =>
    intro h
    simp only [List.map_cons, List.sum_cons]
    rw [Int.add_emod, h x (List.mem_cons_self _ _),
      ih (fun y hy => h y (List.mem_cons_of_mem _ hy)), ← Int.add_emod]

/-! ## Pairwise cancellation algebra

The sign convention of `computeMaskedInputVector` makes the pairwise terms of
two surviving clients antisymmetric (under symmetric DH), and the server's
corrections for a dropped client exactly cancel the orphaned terms of the
survivors. -/

theorem signedPair_self (pm : Nat → Nat → Nat) (i : Nat) : signedPair pm i i = 0 := by
  unfold signedPair
  simp

theorem signedPair_antisymm (pm : Nat → Nat → Nat)
    (hsym : ∀ a b, pm a b = pm b a) (i j : Nat) :
    signedPair pm i j = -signedPair pm j i := by
  unfold signedPair
  rcases Nat.lt_trichotomy i j with h | h | h
  · rw [if_neg (Nat.lt_asymm h), if_pos h, if_pos h, hsym i j]
  · subst h
    simp
  · rw [if_pos h, if_neg (Nat.lt_asymm h), if_pos h, hsym i j, neg_neg]

theorem deadCorrection_cancel (pm : Nat → Nat → Nat)
    (hsym : ∀ a b, pm a b = pm b a) {d j : Nat} (h : j ≠ d) :
    signedPair pm j d + deadCorrection pm d j = 0 := by
  unfold signedPair deadCorrection
  rcases Nat.lt_trichotomy j d with hlt | heq | hgt
  · rw [if_neg (Nat.lt_asymm hlt), if_pos hlt, if_pos hlt, hsym d j]
    ring
  · exact absurd heq h
  · rw [if_pos hgt, if_neg (Nat.lt_asymm hgt), hsym d j]
    ring

theorem sum_sum_antisymm (s : Finset ℕ) (f : ℕ → ℕ → Int)
    (h : ∀ a b, f a b = -f b a) :
    (∑ a ∈ s, ∑ b ∈ s, f a b) = 0 := by
  have h1 : (∑ a ∈ s, ∑ b ∈ s, f a b) = ∑ a ∈ s, ∑ b ∈ s, -f b a :=
    Finset.sum_congr rfl (fun a _ => Finset.sum_congr rfl (fun b _ => h a b))
  have h2 : (∑ a ∈ s, ∑ b ∈ s, -f b a) = -∑ a ∈ s, ∑ b ∈ s, f b a := by
    simp
  have h3 : (∑ a ∈ s, ∑ b ∈ s, f b a) = ∑ b ∈ s, ∑ a ∈ s, f b a := Finset.sum_comm
  have h4 : (∑ a ∈ s, ∑ b ∈ s, f a b) = -∑ a ∈ s, ∑ b ∈ s, f a b :=
    h1.trans (h2.trans (congrArg Neg.neg h3))
  linarith [h4]

/-- The heart of the unmasking argument: the signed pairwise terms that the
surviving clients `A` put into their masked values (peers drawn from all of
`I = A ∪ D`), plus the server's corrections for the dropped clients `D`
against the survivors, sum to zero. -/
theorem pair_correction_cancel (pm : Nat → Nat → Nat)
    (hsym : ∀ a b, pm a b = pm b a)
    (I A D : Finset ℕ) (hU : A ∪ D = I) (hdisj : Disjoint A D) :
    (∑ i ∈ A, ∑ j ∈ I.erase i, signedPair pm i j)
      + (∑ d ∈ D, ∑ j ∈ A, deadCorrection pm d j) = 0 := by
  have e1 : (∑ i ∈ A, ∑ j ∈ I.erase i, signedPair pm i j)
      = ∑ i ∈ A, ∑ j ∈ I, signedPair pm i j :=
    Finset.sum_congr rfl (fun i _ => Finset.sum_erase I (signedPair_self pm i))
  have e3 : (∑ i ∈ A, ∑ j ∈ I, signedPair pm i j)
      = (∑ i ∈ A, ∑ j ∈ A, signedPair pm i j)
        + (∑ i ∈ A, ∑ j ∈ D, signedPair pm i j) := by
    rw [Finset.sum_congr rfl
      (fun i _ => by rw [← hU, Finset.sum_union hdisj] : ∀ i ∈ A, _ = _)]
    exact Finset.sum_add_distrib
  have e4 : (∑ i ∈ A, ∑ j ∈ A, signedPair pm i j) = 0 :=
    sum_sum_antisymm A _ (signedPair_antisymm pm hsym)
  have e5 : (∑ i ∈ A, ∑ j ∈ D, signedPair pm i j)
      + (∑ d ∈ D, ∑ j ∈ A, deadCorrection pm d j) = 0 := by
    have hc : (∑ i ∈ A, ∑ d ∈ D, signedPair pm i d)
        = ∑ d ∈ D, ∑ i ∈ A, signedPair pm i d := Finset.sum_comm
    rw [hc, ← Finset.sum_add_distrib]
    apply Finset.sum_eq_zero
    intro d hd
    rw [← Finset.sum_add_distrib]
    apply Finset.sum_eq_zero
    intro j hj
    have hne : j ≠ d := fun hjd => Finset.disjoint_left.mp hdisj hj (hjd ▸ hd)
    exact deadCorrection_cancel pm hsym hne
  linarith [e1, e3, e4, e5]

/-! ## Bridging the list folds to the Finset algebra -/

theorem not_mem_erase_self (l : List ℕ) (hnd : l.Nodup) (a : ℕ) : a ∉ l.erase a := by
  rw [hnd.erase_eq_filter, List.mem_filter]
  simp

theorem toFinset_erase_of_nodup (l : List ℕ) (hnd : l.Nodup) (a : ℕ) :
    (l.erase a).toFinset = l.toFinset.erase a := by
  ext x
  rw [List.mem_toFinset, Finset.mem_erase, List.mem_toFinset, hnd.erase_eq_filter,
    List.mem_filter]
  simp only [bne_iff_ne, ne_eq]
  tauto

theorem list_sum_map_add {α : Type} (f g : α → Int) (l : List α) :
    (l.map (fun i => f i + g i)).sum = (l.map f).sum + (l.map g).sum := by
  induction l with
  | nil => simp
  | cons x xs ih =>
    simp only [List.map_cons, List.sum_cons, ih]
    ring

theorem filter_mem_filter (ids : List ℕ) (p : ℕ → Bool) :
    ids.filter (fun i => decide (i ∈ ids.filter p)) = ids.filter p := by
  apply List.filter_congr
  intro x hx
  simp [List.mem_filter, hx]

/-- The value of the aggregate after both reconstruction passes, for a run
with dropouts between rounds 1 and 2: `toInt32` of the sum of the surviving
clients' fixed-point secrets — all masks cancel. -/
theorem agg_characterization (pm : Nat → Nat → Nat) (sm : Nat → Nat)
    (ids : List ℕ) (secrets : Nat → ℚ) (dead : Nat → Bool)
    (hnd : ids.Nodup) (hsym : ∀ a b, pm a b = pm b a) :
    reconstructAliveClientsMask sm (ids.filter (fun i => !dead i))
      (reconstructDroppedClientsMask pm
        (ids.filter (fun i => !(decide (i ∈ ids.filter (fun i => !dead i)))))
        ids (ids.filter (fun i => !dead i))
        (collectMaskedGradient (maskedOf pm sm secrets ids) ids
          (ids.filter (fun i => !dead i))))
      = toInt32 (((ids.filter (fun i => !dead i)).map
          (fun i => roundSecret (secrets i))).sum) := by
  set u3 := ids.filter (fun i => !dead i) with hu3
  have hu3nd : u3.Nodup := hnd.filter _
  have hmem_u3 : ∀ x, x ∈ u3 ↔ (x ∈ ids ∧ dead x = false) := by
    intro x
    rw [hu3, List.mem_filter]
    simp
  have hfilter_mem : ids.filter (fun i => decide (i ∈ u3)) = u3 := by
    rw [hu3]
    exact filter_mem_filter ids _
  have hdead_eq : ids.filter (fun i => !(decide (i ∈ u3))) = ids.filter dead := by
    apply List.filter_congr
    intro x hx
    rcases h : dead x with _ | _ <;> simp [hmem_u3 x, hx, h]
  have hmask : ∀ i ∈ ids, maskedOf pm sm secrets ids i
      = toInt32 (((ids.erase i).map (signedPair pm i)).sum + roundSecret (secrets i)
          + (sm i : Int)) := by
    intro i _
    unfold maskedOf
    exact computeMaskedInputVector_eq pm sm i (secrets i) (ids.erase i)
      (not_mem_erase_self ids hnd i)
  have hS : collectMaskedGradient (maskedOf pm sm secrets ids) ids u3
      = toInt32 ((u3.map (fun i => ((ids.erase i).map (signedPair pm i)).sum
          + roundSecret (secrets i) + (sm i : Int))).sum) := by
    rw [collectMaskedGradient_eq, hfilter_mem]
    apply toInt32_congr
    apply list_sum_emod_congr
    intro x hx
    rw [hmask x ((hmem_u3 x).mp hx).1, toInt32_emod]
  rw [hS, reconstructDroppedClientsMask_eq, hdead_eq, hfilter_mem,
    reconstructAliveClientsMask_eq]
  -- name the three components
  set pairP := (u3.map (fun i => ((ids.erase i).map (signedPair pm i)).sum)).sum with hP
  set corrC := ((ids.filter dead).map (fun d => (u3.map (deadCorrection pm d)).sum)).sum
    with hC
  set roundR := (u3.map (fun i => roundSecret (secrets i))).sum with hR
  set selfS := (u3.map (fun i => (sm i : Int))).sum with hSM
  have hT : (u3.map (fun i => ((ids.erase i).map (signedPair pm i)).sum
      + roundSecret (secrets i) + (sm i : Int))).sum = pairP + roundR + selfS := by
    rw [hP, hR, hSM,
      list_sum_map_add (fun i => ((ids.erase i).map (signedPair pm i)).sum
        + roundSecret (secrets i)) (fun i => (sm i : Int)) u3,
      list_sum_map_add (fun i => ((ids.erase i).map (signedPair pm i)).sum)
        (fun i => roundSecret (secrets i)) u3]
  -- the Finset cancellation
  have hAunion : u3.toFinset ∪ (ids.filter dead).toFinset = ids.toFinset := by
    ext x
    simp only [Finset.mem_union, List.mem_toFinset, hmem_u3, List.mem_filter]
    rcases h : dead x with _ | _ <;> simp [h]
  have hAdisj : Disjoint u3.toFinset ((ids.filter dead).toFinset) := by
    rw [Finset.disjoint_left]
    intro x hx hx2
    rw [List.mem_toFinset] at hx hx2
    have h1 := ((hmem_u3 x).mp hx).2
    have h2 := (List.mem_filter.mp hx2).2
    rw [h1] at h2
    exact absurd h2 (by simp)
  have hPfin : pairP = ∑ i ∈ u3.toFinset, ∑ j ∈ ids.toFinset.erase i, signedPair pm i j := by
    rw [hP, ← List.sum_toFinset _ hu3nd]
    apply Finset.sum_congr rfl
    intro i _
    rw [← List.sum_toFinset _ (hnd.erase i), toFinset_erase_of_nodup ids hnd i]
  have hCfin : corrC = ∑ d ∈ (ids.filter dead).toFinset, ∑ j ∈ u3.toFinset,
      deadCorrection pm d j := by
    rw [hC, ← List.sum_toFinset _ (hnd.filter dead)]
    apply Finset.sum_congr rfl
    intro d _
    rw [← List.sum_toFinset _ hu3nd]
  have hPC : pairP + corrC = 0 := by
    rw [hPfin, hCfin]
    exact pair_correction_cancel pm hsym ids.toFinset u3.toFinset
      ((ids.filter dead).toFinset) hAunion hAdisj
  have h5 : toInt32 (toInt32 (corrC + toInt32 (pairP + roundR + selfS)) - selfS)
      = toInt32 (corrC + (pairP + roundR + selfS) - selfS) := by
    unfold toInt32
    omega
  rw [hT, h5]
  have h6 : corrC + (pairP + roundR + selfS) - selfS = roundR := by
    linarith [hPC]
  rw [h6]

/-- `Server.round3()`'s return value for a run with dropouts between
rounds 1 and 2, fully unmasked. -/
theorem runProtocol_eq (pm : Nat → Nat → Nat) (sm : Nat → Nat)
    (ids : List ℕ) (secrets : Nat → ℚ) (dead : Nat → Bool)
    (hnd : ids.Nodup) (hsym : ∀ a b, pm a b = pm b a) :
    runProtocol pm sm ids secrets dead
      = (toInt32 (((ids.filter (fun i => !dead i)).map
          (fun i => roundSecret (secrets i))).sum) : ℚ)
        / 10 ^ 4 / (((ids.filter (fun i => !dead i)).length : ℚ)) := by
  show ((reconstructAliveClientsMask sm (ids.filter (fun i => !dead i))
      (reconstructDroppedClientsMask pm
        (ids.filter (fun i => !(decide (i ∈ ids.filter (fun i => !dead i)))))
        ids (ids.filter (fun i => !dead i))
        (collectMaskedGradient (maskedOf pm sm secrets ids) ids
          (ids.filter (fun i => !dead i)))) : ℚ))
      / 10 ^ 4 / (((ids.filter (fun i => !dead i)).length : ℚ)) = _
  rw [agg_characterization pm sm ids secrets dead hnd hsym]

/-! ## `aggregateWithoutSecrecy` and the fixed-point error bound -/

theorem aggregate_fold (secrets : Nat → ℚ) (u3 : List ℕ) :
    ∀ (l : List ℕ) (a : ℚ) (b : ℕ),
      l.foldl (fun (p : ℚ × ℕ) i => if i ∈ u3 then (p.1 + secrets i, p.2 + 1) else p) (a, b)
        = (a + ((l.filter (fun i => decide (i ∈ u3))).map secrets).sum,
            b + (l.filter (fun i => decide (i ∈ u3))).length) := by
  intro l
  induction l with
  | nil => intro a b; simp
  | cons x xs ih =>
    intro a b
    by_cases hx : x ∈ u3
    · have hd : (x :: xs).filter (fun i => decide (i ∈ u3))
          = x :: xs.filter (fun i => decide (i ∈ u3)) := by
        simp [List.filter_cons, hx]
      rw [hd]
      simp only [List.foldl_cons, if_pos hx, List.map_cons, List.sum_cons, List.length_cons]
      rw [ih (a + secrets x) (b + 1), Prod.mk.injEq]
      constructor
      · ring
      · omega
    · have hd : (x :: xs).filter (fun i => decide (i ∈ u3))
          = xs.filter (fun i => decide (i ∈ u3)) := by
        simp [List.filter_cons, hx]
      rw [hd]
      simp only [List.foldl_cons, if_neg hx]
      exact ih a b

theorem aggregateWithoutSecrecy_eq (secrets : Nat → ℚ) (clientList u3 : List ℕ) :
    aggregateWithoutSecrecy secrets clientList u3
      = (((clientList.filter (fun i => decide (i ∈ u3))).map secrets).sum)
        / (((clientList.filter (fun i => decide (i ∈ u3))).length : ℚ)) := by
  unfold aggregateWithoutSecrecy
  rw [aggregate_fold secrets u3 clientList 0 0]
  simp

theorem abs_roundSecret_sub (s : ℚ) : |(roundSecret s : ℚ) - s * 10 ^ 4| ≤ 1 / 2 := by
  unfold roundSecret
  rw [abs_sub_comm]
  exact abs_sub_round (s * 10 ^ 4)

theorem sum_round_err (secrets : Nat → ℚ) :
    ∀ (l : List ℕ),
      |((l.map (fun i => roundSecret (secrets i))).sum : ℚ)
        - 10 ^ 4 * (l.map secrets).sum| ≤ (l.length : ℚ) / 2 := by
  intro l
  induction l with
  | nil => simp
  | cons x xs ih =>
    simp only [List.map_cons, List.sum_cons, List.length_cons]
    have h1 : ((roundSecret (secrets x) + (xs.map (fun i => roundSecret (secrets i))).sum : ℤ) : ℚ)
        - 10 ^ 4 * (secrets x + (xs.map secrets).sum)
        = ((roundSecret (secrets x) : ℚ) - secrets x * 10 ^ 4)
          + (((xs.map (fun i => roundSecret (secrets i))).sum : ℚ)
            - 10 ^ 4 * (xs.map secrets).sum) := by
      push_cast
      ring
    rw [h1]
    calc |((roundSecret (secrets x) : ℚ) - secrets x * 10 ^ 4)
          + (((xs.map (fun i => roundSecret (secrets i))).sum : ℚ)
            - 10 ^ 4 * (xs.map secrets).sum)|
        ≤ |(roundSecret (secrets x) : ℚ) - secrets x * 10 ^ 4|
          + |((xs.map (fun i => roundSecret (secrets i))).sum : ℚ)
            - 10 ^ 4 * (xs.map secrets).sum| := abs_add _ _
      _ ≤ 1 / 2 + (xs.length : ℚ) / 2 := by
          exact add_le_add (abs_roundSecret_sub (secrets x)) ih
      _ = ((xs.length : ℚ) + 1) / 2 := by ring
      _ ≤ (((xs.length + 1 : ℕ)) : ℚ) / 2 := by push_cast; ring_nf; exact le_refl _

/-- The output `R / 10^4 / n` (with `R` the sum of rounded fixed-point
secrets) is within half a fixed-point unit of the true mean. -/
theorem mean_error_bound (secrets : Nat → ℚ) (l : List ℕ) (h : 1 ≤ l.length) :
    |((l.map (fun i => roundSecret (secrets i))).sum : ℚ) / 10 ^ 4 / (l.length : ℚ)
      - ((l.map secrets).sum) / (l.length : ℚ)| ≤ 1 / 20000 := by
  have hn : (1 : ℚ) ≤ (l.length : ℚ) := by exact_mod_cast h
  have hn0 : (l.length : ℚ) ≠ 0 := by linarith
  have hnpos : (0 : ℚ) < (l.length : ℚ) := by linarith
  have hsplit : ((l.map (fun i => roundSecret (secrets i))).sum : ℚ) / 10 ^ 4 / (l.length : ℚ)
      - ((l.map secrets).sum) / (l.length : ℚ)
      = (((l.map (fun i => roundSecret (secrets i))).sum : ℚ)
          - 10 ^ 4 * (l.map secrets).sum) / (10 ^ 4 * (l.length : ℚ)) := by
    field_simp
    ring
  rw [hsplit, abs_div]
  have habs_den : |(10 : ℚ) ^ 4 * (l.length : ℚ)| = 10 ^ 4 * (l.length : ℚ) := by
    rw [abs_of_pos]
    positivity
  rw [habs_den]
  have hden : (0 : ℚ) < 10 ^ 4 * (l.length : ℚ) := by positivity
  calc |((l.map (fun i => roundSecret (secrets i))).sum : ℚ) - 10 ^ 4 * (l.map secrets).sum|
        / (10 ^ 4 * (l.length : ℚ))
      ≤ ((l.length : ℚ) / 2) / (10 ^ 4 * (l.length : ℚ)) :=
        (div_le_div_iff_of_pos_right hden).mpr (sum_round_err secrets l)
    _ = 1 / 20000 := by
        field_simp
        ring

/-! ## Support lemmas for the aliasing and indexing claims -/

theorem filter_mem_self (l : List ℕ) : l.filter (fun i => decide (i ∈ l)) = l := by
  rw [List.filter_congr (fun x hx => by simp [hx] :
    ∀ x ∈ l, (decide (x ∈ l) : Bool) = (fun _ : ℕ => true) x)]
  exact List.filter_true l

theorem readRef_set (store : List (List ℕ)) (r : Nat) (v : List ℕ)
    (h : r < store.length) : readRef (store.set r v) r = v := by
  unfold readRef
  simp [List.getD_eq_getElem?_getD, List.getElem?_set_self, h]

theorem deleteLoop_subset (keep : Nat → Bool) :
    ∀ (keys obj : List ℕ), deleteLoop keep keys obj ⊆ obj := by
  intro keys
  induction keys with
  | nil => intro obj; exact fun _ h => h
  | cons k ks ih =>
    intro obj
    unfold deleteLoop
    simp only [List.foldl_cons]
    by_cases hk : keep k
    · rw [if_pos hk]
      exact ih obj
    · rw [if_neg hk]
      exact (ih (obj.erase k)).trans (List.erase_subset k obj)

theorem deleteLoop_not_mem (keep : Nat → Bool) {c : Nat} (hc : keep c = false) :
    ∀ (keys obj : List ℕ), obj.Nodup → c ∈ keys → c ∉ deleteLoop keep keys obj := by
  intro keys
  induction keys with
  | nil => intro obj _ hmem; cases hmem
  | cons k ks ih =>
    intro obj hnd hmem
    unfold deleteLoop
    simp only [List.foldl_cons]
    by_cases hk : keep k
    · rw [if_pos hk]
      rcases List.mem_cons.mp hmem with heq | hmem2
      · subst heq
        rw [hc] at hk
        cases hk
      · exact ih obj hnd hmem2
    · rw [if_neg hk]
      by_cases hck : c = k
      · subst hck
        intro hmem3
        exact not_mem_erase_self obj hnd c (deleteLoop_subset keep ks (obj.erase c) hmem3)
      · rcases List.mem_cons.mp hmem with heq | hmem2
        · exact absurd heq hck
        · exact ih (obj.erase k) (hnd.erase k) hmem2

theorem generateCiphertexts_fold (selfId : Nat) :
    ∀ (peers : List ℕ), selfId ∉ peers → ∀ (acc : List (Nat × Nat)) (idx : Nat),
      peers.foldl
        (fun (st : List (Nat × Nat) × Nat) j =>
          if j ≠ selfId then ((j, st.2) :: st.1, st.2 + 1) else (st.1, st.2 + 1))
        (acc, idx)
        = (((List.enumFrom idx peers).map (fun p => (p.2, p.1))).reverse ++ acc,
            idx + peers.length) := by
  intro peers
  induction peers with
  | nil => intro _ acc idx; simp
  | cons j js ih =>
    intro hmem acc idx
    have hj : j ≠ selfId := fun h => hmem (h ▸ List.mem_cons_self _ _)
    have hjs : selfId ∉ js := fun h => hmem (List.mem_cons_of_mem _ h)
    simp only [List.foldl_cons, if_pos hj]
    rw [ih hjs ((j, idx) :: acc) (idx + 1), List.enumFrom_cons]
    simp only [List.map_cons, List.reverse_cons, List.length_cons]
    rw [Prod.mk.injEq]
    constructor
    · simp
    · omega

/-- On a duplicate-free broadcast list, removing the client's own id by
filtering equals `List.erase`. -/
theorem pairwisePeerList_eq_erase (clientList : List ℕ) (selfId : Nat)
    (hnd : clientList.Nodup) :
    pairwisePeerList selfId clientList = clientList.erase selfId := by
  unfold pairwisePeerList
  rw [hnd.erase_eq_filter]
  apply List.filter_congr
  intro x _
  by_cases h : x = selfId <;> simp [h]

/-! ## The claims -/

/-- **C5** (code bug): the spec says `round1()` fails with `BelowThreshold`
whenever `|U₂| < t`, but `computeU2` compares `clientListU2.length` — the
`length` of a plain object, i.e. `undefined` — with the threshold, and
`undefined < t` is `false`, so the check never fires: `computeU2` succeeds on
every input, in particular with a single up client and threshold 2. -/
theorem c5_computeU2_never_raises :
    (∀ (clientList : List (Nat × Bool)) (threshold : Nat),
      computeU2 clientList threshold = .ok (clientList.filter (fun c => c.2)))
    ∧ computeU2 [(1, true), (2, false)] 2 = .ok [(1, true)] :=
  ⟨fun _ _ => rfl, rfl⟩

/-- **C6** (code bug): the spec says `receiveClients` fails with
`TooFewClients` on short lists and `KeyCollision` on duplicate public keys,
but the received `clientList` is a plain object: `clientList.length` is
`undefined`, both the threshold test and the collision-scan loop condition
are `false`, and the list is always recorded.  In particular a 1-entry list
with threshold 2, and a list with two identical public keys, are accepted. -/
theorem c6_receiveClients_never_raises :
    (∀ (threshold : Nat) (clientList : List (Nat × Nat)),
      receiveClients threshold clientList = .ok clientList)
    ∧ receiveClients 2 [(1, 7)] = .ok [(1, 7)]
    ∧ receiveClients 2 [(1, 7), (2, 7), (3, 8)] = .ok [(1, 7), (2, 7), (3, 8)] :=
  ⟨fun _ _ => rfl, rfl, rfl⟩

/-- **C7** (counterexample): with broadcast order `[1, 2, 3]` and client 1
generating its ciphertexts, the claim predicts share #k delivered to the peer
of rank k in the fixed 1-based ordering and `ownIndex` = rank of self, i.e.
`([(2, 2), (3, 3)], 1)`; the code instead assigns consecutive indices to the
peers with self skipped and keeps `ownIndex = N = 3`. -/
theorem c7_claim_counterexample :
    roundOneIndices [1, 2, 3] 1 = ([(2, 1), (3, 2)], 3)
    ∧ roundOneIndices [1, 2, 3] 1 ≠ ([(2, 2), (3, 3)], 1) := by
  constructor
  · rfl
  · decide

/-- **C7** (amended): the k-th peer of the *peers-only* iteration order (the
broadcast order with the client itself removed) receives share index k, and
`ownIndex` is always `N`, the length of the broadcast list, regardless of the
client's own rank. -/
theorem c7_share_indexing (clientList : List ℕ) (selfId : Nat)
    (hnd : clientList.Nodup) (hself : selfId ∈ clientList) :
    (roundOneIndices clientList selfId).1
      = (List.enumFrom 1 (pairwisePeerList selfId clientList)).map (fun p => (p.2, p.1))
    ∧ (roundOneIndices clientList selfId).2 = clientList.length := by
  have hnotmem : selfId ∉ pairwisePeerList selfId clientList := by
    rw [pairwisePeerList_eq_erase clientList selfId hnd]
    exact not_mem_erase_self clientList hnd selfId
  have hlen : (pairwisePeerList selfId clientList).length = clientList.length - 1 := by
    rw [pairwisePeerList_eq_erase clientList selfId hnd]
    exact List.length_erase_of_mem hself
  have hlen1 : 1 ≤ clientList.length := List.length_pos.mpr (by
    intro h
    rw [h] at hself
    cases hself)
  unfold roundOneIndices generateCiphertexts
  rw [generateCiphertexts_fold selfId (pairwisePeerList selfId clientList) hnotmem [] 1]
  constructor
  · simp
  · simp only []
    omega

/-- **C7** (witness): the amended indexing at the concrete ordering
`[1, 2, 3]` with self = 1. -/
theorem c7_share_indexing_witness :
    (roundOneIndices [1, 2, 3] 1).1
      = (List.enumFrom 1 (pairwisePeerList 1 [1, 2, 3])).map (fun p => (p.2, p.1))
    ∧ (roundOneIndices [1, 2, 3] 1).2 = ([1, 2, 3] : List ℕ).length :=
  c7_share_indexing [1, 2, 3] 1 (by decide) (by decide)

/-- **C9**: `putDown()` forces `isUp = false`; `round1`, `round2`, `round3`
are no-ops on a down client (they return the state unchanged); no round
operation ever changes `isUp`, and `putDown` is idempotent. -/
theorem c9_putDown_permanent :
    ∀ (s : ClientState) (r : Round1Randomness) (pm : Nat → Nat → Nat)
      (sm : Nat → Nat) (d : List (Nat × Nat)),
      (putDown s).isUp = false
      ∧ clientRound1 r (putDown s) = putDown s
      ∧ clientRound2 pm sm (putDown s) = putDown s
      ∧ clientRound3 d (putDown s) = putDown s
      ∧ putDown (putDown s) = putDown s
      ∧ (clientRound1 r s).isUp = s.isUp
      ∧ (clientRound2 pm sm s).isUp = s.isUp
      ∧ (clientRound3 d s).isUp = s.isUp := by
  intro s r pm sm d
  refine ⟨rfl, ?_, ?_, ?_, rfl, ?_, ?_, ?_⟩
  · simp [clientRound1, putDown]
  · simp [clientRound2, putDown]
  · simp [clientRound3, putDown]
  · by_cases h : s.isUp <;> simp [clientRound1, h]
  · by_cases h : s.isUp <;> simp [clientRound2, h]
  · by_cases h : s.isUp <;> simp [clientRound3, h]

/-- **C10**: in both `Server.computeU2` and `Client.receiveCiphertexts`, the
U₂ view is the same object as the recorded U₁ map (`clientListU2` holds the
same reference as `clientList`), so every peer deleted from the U₂ view —
because it is down, respectively sent no ciphertext — is gone from the U₁ map
observed through `clientList` as well. -/
theorem c10_u2_aliases_u1 (isUp hasC : Nat → Bool) (s : RefState)
    (h1 : s.clientList < s.store.length)
    (h2 : (readRef s.store s.clientList).Nodup) :
    (computeU2Refs isUp s).clientListU2 = some (computeU2Refs isUp s).clientList
    ∧ (receiveCiphertextsRefs hasC s).clientListU2
        = some (receiveCiphertextsRefs hasC s).clientList
    ∧ (∀ c ∈ readRef s.store s.clientList, isUp c = false →
        c ∉ readRef (computeU2Refs isUp s).store (computeU2Refs isUp s).clientList)
    ∧ (∀ c ∈ readRef s.store s.clientList, hasC c = false →
        c ∉ readRef (receiveCiphertextsRefs hasC s).store
          (receiveCiphertextsRefs hasC s).clientList) := by
  refine ⟨rfl, rfl, ?_, ?_⟩
  · intro c hc hdown
    have hread : readRef (computeU2Refs isUp s).store (computeU2Refs isUp s).clientList
        = deleteLoop isUp (readRef s.store s.clientList) (readRef s.store s.clientList) :=
      readRef_set s.store s.clientList _ h1
    rw [hread]
    exact deleteLoop_not_mem isUp hdown _ _ h2 hc
  · intro c hc hdown
    have hread : readRef (receiveCiphertextsRefs hasC s).store
        (receiveCiphertextsRefs hasC s).clientList
        = deleteLoop hasC (readRef s.store s.clientList) (readRef s.store s.clientList) :=
      readRef_set s.store s.clientList _ h1
    rw [hread]
    exact deleteLoop_not_mem hasC hdown _ _ h2 hc

/-- **C10** (witness): on the store holding the single map `[1, 2]` with only
client 1 up, after `computeU2` the map observed through `clientList` no longer
contains client 2, and the U₂ field aliases `clientList`. -/
theorem c10_u2_aliases_u1_witness :
    (computeU2Refs (fun c => decide (c = 1)) ⟨[[1, 2]], 0, none⟩).clientListU2
      = some (computeU2Refs (fun c => decide (c = 1)) ⟨[[1, 2]], 0, none⟩).clientList
    ∧ 2 ∉ readRef (computeU2Refs (fun c => decide (c = 1)) ⟨[[1, 2]], 0, none⟩).store
        (computeU2Refs (fun c => decide (c = 1)) ⟨[[1, 2]], 0, none⟩).clientList := by
  have h := c10_u2_aliases_u1 (fun c => decide (c = 1)) (fun c => decide (c = 1))
    ⟨[[1, 2]], 0, none⟩ (by decide) (by decide)
  exact ⟨h.1, h.2.2.1 2 (by decide) (by decide)⟩

/-- **C4** (counterexample): a client with local U₂ view `[1, 2]`, own id 3
and threshold 2 receives `U₃ = [1, 2, 99]`.  The id 99 is in U₃, not in
U₂_local and not the client's own id, yet the call succeeds: the code only
fails when *more than one* id falls outside U₂_local. -/
theorem c4_claim_counterexample :
    receiveclientIDsU3 2 [1, 2] [1, 2, 99] = .ok ([1, 2, 99], [])
    ∧ (99 : ℕ) ∈ ([1, 2, 99] : List ℕ) ∧ (99 : ℕ) ∉ ([1, 2] : List ℕ)
    ∧ (99 : ℕ) ≠ 3 := by
  refine ⟨rfl, by decide, by decide, by decide⟩

/-- **C4** (amended): `receiveclientIDsU3` fails with `TooFewSurvivors`
whenever `|ids| < t`; otherwise it fails with `MembershipViolation` exactly
when more than one id of `ids` lies outside U₂_local (the client's own id is
never in U₂_local, so it accounts for one allowed outsider; a single foreign
id with the own id absent is accepted), and succeeds otherwise. -/
theorem c4_membership_check (t : ℕ) (u2 ids : List ℕ) :
    (ids.length < t → receiveclientIDsU3 t u2 ids = .error .TooFewSurvivors)
    ∧ (t ≤ ids.length →
        ((ids.filter (fun k => !(decide (k ∈ u2)))).length > 1 →
          receiveclientIDsU3 t u2 ids = .error .MembershipViolation)
        ∧ ((ids.filter (fun k => !(decide (k ∈ u2)))).length ≤ 1 →
          receiveclientIDsU3 t u2 ids
            = .ok (ids, u2.filter (fun k => !(decide (k ∈ ids)))))) := by
  unfold receiveclientIDsU3
  refine ⟨fun hlt => ?_, fun hge => ⟨fun hgt => ?_, fun hle => ?_⟩⟩
  · rw [if_pos hlt]
  · rw [if_neg (by omega), if_pos hgt]
  · rw [if_neg (by omega), if_neg (by omega)]

/-- **C4** (witness): with threshold 2 and U₂_local `[1, 2]`, the survivor
list `[3, 4, 5]` has three ids outside U₂_local and is rejected with
`MembershipViolation`; the list `[1, 2, 3]` (own id 3 the only outsider) is
accepted; a 1-element list is rejected with `TooFewSurvivors`. -/
theorem c4_membership_check_witness :
    receiveclientIDsU3 2 [1, 2] [3, 4, 5] = .error .MembershipViolation
    ∧ receiveclientIDsU3 2 [1, 2] [1, 2, 3] = .ok ([1, 2, 3], [])
    ∧ receiveclientIDsU3 2 [1, 2] [1] = .error .TooFewSurvivors := by
  refine ⟨?_, ?_, ?_⟩
  · exact ((c4_membership_check 2 [1, 2] [3, 4, 5]).2 (by decide)).1 (by decide)
  · exact ((c4_membership_check 2 [1, 2] [1, 2, 3]).2 (by decide)).2 (by decide)
  · exact (c4_membership_check 2 [1, 2] [1]).1 (by decide)

/-- **C1** (counterexample): two 2-client runs satisfying all the claim's
hypotheses (no dropouts, symmetric DH, `|sᵢ| < 2³¹/10⁴/N`).
(a) `s₁ = s₂ = 3/100000`: each client rounds its own secret before scaling
(`round(0.3) = 0`), so `round3()` returns 0, while the claim's formula
`round(Σ sᵢ·10⁴)/10⁴/N = round(0.6)/10⁴/2 = 1/20000` differs — the rounding
happens per client, inside the sum.
(b) `s₁ = s₂ = (2³⁰ - 2/5)/10⁴`, strictly below the claim's bound
`2³¹/10⁴/2`: the per-client roundings sum to exactly `2³¹`, the 32-bit
accumulator wraps to `-2³¹`, and the output is the negation of the claimed
mean — the claim's magnitude bound does not keep the accumulator in range. -/
theorem c1_claim_counterexample :
    (runProtocol (fun _ _ => 0) (fun _ => 0) [1, 2] (fun _ => 3 / 100000)
        (fun _ => false) = 0
    ∧ runProtocol (fun _ _ => 0) (fun _ => 0) [1, 2] (fun _ => 3 / 100000)
        (fun _ => false)
      ≠ ((round (((3 : ℚ) / 100000) * 10 ^ 4 + ((3 : ℚ) / 100000) * 10 ^ 4) : ℤ) : ℚ)
          / 10 ^ 4 / 2)
    ∧ ((2 ^ 30 - 2 / 5 : ℚ) / 10 ^ 4 < 2 ^ 31 / 10 ^ 4 / 2
    ∧ runProtocol (fun _ _ => 0) (fun _ => 0) [1, 2]
        (fun _ => (2 ^ 30 - 2 / 5 : ℚ) / 10 ^ 4) (fun _ => false)
      = -(2147483648 : ℚ) / 10 ^ 4 / 2) := by
  constructor
  · have hrs : roundSecret ((3 : ℚ) / 100000) = 0 := by
      unfold roundSecret
      norm_num [round_eq]
    have h1 : runProtocol (fun _ _ => 0) (fun _ => 0) [1, 2] (fun _ => 3 / 100000)
        (fun _ => false) = 0 := by
      rw [runProtocol_eq (fun _ _ => 0) (fun _ => 0) [1, 2] (fun _ => 3 / 100000)
        (fun _ => false) (by decide) (fun _ _ => rfl)]
      simp [hrs, toInt32_zero]
    refine ⟨h1, ?_⟩
    rw [h1]
    have h2 : round (((3 : ℚ) / 100000) * 10 ^ 4 + ((3 : ℚ) / 100000) * 10 ^ 4) = 1 := by
      norm_num [round_eq]
    rw [h2]
    norm_num
  · constructor
    · norm_num
    · have hrs : roundSecret ((2 ^ 30 - 2 / 5 : ℚ) / 10 ^ 4) = 2 ^ 30 := by
        unfold roundSecret
        norm_num [round_eq]
      rw [runProtocol_eq (fun _ _ => 0) (fun _ => 0) [1, 2]
        (fun _ => (2 ^ 30 - 2 / 5 : ℚ) / 10 ^ 4) (fun _ => false) (by decide)
        (fun _ _ => rfl)]
      have hfl : ([1, 2] : List ℕ).filter (fun i => !(false : Bool)) = [1, 2] := by decide
      rw [hfl]
      have hmap : ([1, 2] : List ℕ).map
          (fun i => roundSecret ((fun _ : ℕ => (2 ^ 30 - 2 / 5 : ℚ) / 10 ^ 4) i))
          = [2 ^ 30, 2 ^ 30] := by
        simp only [List.map_cons, List.map_nil]
        rw [hrs]
      rw [hmap]
      have hsum : ([2 ^ 30, 2 ^ 30] : List ℤ).sum = 2 ^ 31 := by norm_num
      rw [hsum]
      have hw : toInt32 (2 ^ 31) = -2147483648 := by decide
      rw [hw]
      norm_num

/-- **C1** (amended): for a duplicate-free client list of size ≥ 2, symmetric
DH derivation, no dropouts, and the *sum of the per-client rounded secrets*
inside the signed 32-bit range, `round3()` returns
`(Σᵢ round(sᵢ·10⁴)) / 10⁴ / N` — the mean of the fixed-point-rounded
secrets with rounding applied per client — and agrees with
`aggregateWithoutSecrecy()` to within half a fixed-point unit, `1/20000`. -/
theorem c1_no_dropout_correctness (pm : Nat → Nat → Nat) (sm : Nat → Nat)
    (ids : List ℕ) (secrets : Nat → ℚ)
    (hnd : ids.Nodup) (hlen : 2 ≤ ids.length)
    (hsym : ∀ a b, pm a b = pm b a)
    (hlo : -2147483648 ≤ (ids.map (fun i => roundSecret (secrets i))).sum)
    (hhi : (ids.map (fun i => roundSecret (secrets i))).sum < 2147483648) :
    runProtocol pm sm ids secrets (fun _ => false)
      = (((ids.map (fun i => roundSecret (secrets i))).sum : ℤ) : ℚ)
          / 10 ^ 4 / (ids.length : ℚ)
    ∧ |runProtocol pm sm ids secrets (fun _ => false)
        - aggregateWithoutSecrecy secrets ids ids| ≤ 1 / 20000 := by
  have hfilter : ids.filter (fun i => !(fun _ : ℕ => false) i) = ids := by
    simp
  have h1 : runProtocol pm sm ids secrets (fun _ => false)
      = (((ids.map (fun i => roundSecret (secrets i))).sum : ℤ) : ℚ)
          / 10 ^ 4 / (ids.length : ℚ) := by
    rw [runProtocol_eq pm sm ids secrets (fun _ => false) hnd hsym, hfilter,
      toInt32_eq_self hlo hhi]
  refine ⟨h1, ?_⟩
  have h2 : aggregateWithoutSecrecy secrets ids ids
      = ((ids.map secrets).sum) / (ids.length : ℚ) := by
    rw [aggregateWithoutSecrecy_eq, filter_mem_self]
  rw [h1, h2]
  exact mean_error_bound secrets ids (by omega)

/-- **C1** (witness): the amended statement at the concrete run
`ids = [1, 2]`, all secrets 1, zero masks. -/
theorem c1_no_dropout_correctness_witness :
    runProtocol (fun _ _ => 0) (fun _ => 0) [1, 2] (fun _ => 1) (fun _ => false)
      = ((([1, 2].map (fun i => roundSecret ((fun _ : ℕ => (1 : ℚ)) i))).sum : ℤ) : ℚ)
          / 10 ^ 4 / (([1, 2] : List ℕ).length : ℚ)
    ∧ |runProtocol (fun _ _ => 0) (fun _ => 0) [1, 2] (fun _ => 1) (fun _ => false)
        - aggregateWithoutSecrecy (fun _ => 1) [1, 2] [1, 2]| ≤ 1 / 20000 := by
  have hrs : roundSecret (1 : ℚ) = 10000 := by
    unfold roundSecret
    norm_num [round_eq]
  have h := c1_no_dropout_correctness (fun _ _ => 0) (fun _ => 0) [1, 2] (fun _ => 1)
    (by decide) (by decide) (fun _ _ => rfl) (by simp [hrs]) (by simp [hrs])
  exact ⟨h.1, h.2⟩

/-- **C2** (counterexample): the claim puts no bound on the surviving
secrets, but the accumulator wraps: with `U₂ = {1, 2, 3}`, client 1 dropped
after round 1, and surviving secrets `2³⁰/10⁴` each, the true surviving mean
is `2³⁰/10⁴` while `round3()` wraps `2³⁰ + 2³⁰ = 2³¹` to `-2³¹` and returns
its negation — off by far more than fixed-point rounding. -/
theorem c2_claim_counterexample :
    runProtocol (fun _ _ => 0) (fun _ => 0) [1, 2, 3]
        (fun i => if i = 1 then 0 else (2 ^ 30 : ℚ) / 10 ^ 4)
        (fun i => decide (i = 1))
      = -(2147483648 : ℚ) / 10 ^ 4 / 2
    ∧ |runProtocol (fun _ _ => 0) (fun _ => 0) [1, 2, 3]
        (fun i => if i = 1 then 0 else (2 ^ 30 : ℚ) / 10 ^ 4)
        (fun i => decide (i = 1))
        - ((2 ^ 30 : ℚ) / 10 ^ 4)| > 1 := by
  have hrs : roundSecret ((2 ^ 30 : ℚ) / 10 ^ 4) = 2 ^ 30 := by
    unfold roundSecret
    norm_num [round_eq]
  have h1 : runProtocol (fun _ _ => 0) (fun _ => 0) [1, 2, 3]
      (fun i => if i = 1 then 0 else (2 ^ 30 : ℚ) / 10 ^ 4)
      (fun i => decide (i = 1)) = -(2147483648 : ℚ) / 10 ^ 4 / 2 := by
    rw [runProtocol_eq (fun _ _ => 0) (fun _ => 0) [1, 2, 3]
      (fun i => if i = 1 then 0 else (2 ^ 30 : ℚ) / 10 ^ 4)
      (fun i => decide (i = 1)) (by decide) (fun _ _ => rfl)]
    have hfl : ([1, 2, 3] : List ℕ).filter (fun i => !(decide (i = 1))) = [2, 3] := by
      decide
    rw [hfl]
    have hmap : ([2, 3] : List ℕ).map
        (fun i => roundSecret ((fun i => if i = 1 then 0 else (2 ^ 30 : ℚ) / 10 ^ 4) i))
        = [2 ^ 30, 2 ^ 30] := by
      simp only [List.map_cons, List.map_nil]
      rw [if_neg (by decide : ¬(2 : ℕ) = 1), if_neg (by decide : ¬(3 : ℕ) = 1), hrs]
    rw [hmap]
    have hsum : ([2 ^ 30, 2 ^ 30] : List ℤ).sum = 2 ^ 31 := by norm_num
    rw [hsum]
    have hw : toInt32 (2 ^ 31) = -2147483648 := by decide
    rw [hw]
    norm_num
  refine ⟨h1, ?_⟩
  rw [h1]
  have heq : -(2147483648 : ℚ) / 10 ^ 4 / 2 - 2 ^ 30 / 10 ^ 4 = -(134217728 / 625) := by
    norm_num
  rw [heq, abs_neg, abs_of_pos (by norm_num : (0 : ℚ) < 134217728 / 625)]
  norm_num

/-- **C2** (amended): for a duplicate-free client list, symmetric DH,
dropouts only between rounds 1 and 2, `|U₂∖D| ≥ t` survivors (with which the
live `computeU3` threshold check — and the identical `computeU5` check of
round 3 — passes, so `round3()` does run), and — the change the
counterexample forces — the sum of the surviving rounded secrets inside the
signed 32-bit range, `round3()` returns the mean of the surviving clients'
fixed-point-rounded secrets, within `1/20000` of the surviving plain mean
(`aggregateWithoutSecrecy` over U₃): the reconstructed pairwise masks of the
dead and the self-masks of the survivors are removed from `S` with the
stated signs. -/
theorem c2_dropout_correctness (pm : Nat → Nat → Nat) (sm : Nat → Nat)
    (ids : List ℕ) (secrets : Nat → ℚ) (dead : Nat → Bool) (threshold : ℕ)
    (hnd : ids.Nodup) (hsym : ∀ a b, pm a b = pm b a)
    (ht : 1 ≤ threshold)
    (hsurv : threshold ≤ (ids.filter (fun i => !dead i)).length)
    (hlo : -2147483648
        ≤ ((ids.filter (fun i => !dead i)).map (fun i => roundSecret (secrets i))).sum)
    (hhi : ((ids.filter (fun i => !dead i)).map (fun i => roundSecret (secrets i))).sum
        < 2147483648) :
    runProtocolChecked pm sm ids secrets dead threshold
      = .ok (runProtocol pm sm ids secrets dead)
    ∧ runProtocol pm sm ids secrets dead
      = ((((ids.filter (fun i => !dead i)).map (fun i => roundSecret (secrets i))).sum : ℤ) : ℚ)
          / 10 ^ 4 / (((ids.filter (fun i => !dead i)).length : ℚ))
    ∧ |runProtocol pm sm ids secrets dead
        - aggregateWithoutSecrecy secrets ids (ids.filter (fun i => !dead i))| ≤ 1 / 20000 := by
  have hok : runProtocolChecked pm sm ids secrets dead threshold
      = .ok (runProtocol pm sm ids secrets dead) := by
    unfold runProtocolChecked computeU3
    rw [if_neg (show ¬(ids.filter (fun i => !dead i)).length < threshold by omega)]
    dsimp only
    rw [if_neg (show ¬(ids.filter (fun i => !dead i)).length < threshold by omega)]
  have h1 : runProtocol pm sm ids secrets dead
      = ((((ids.filter (fun i => !dead i)).map (fun i => roundSecret (secrets i))).sum : ℤ) : ℚ)
          / 10 ^ 4 / (((ids.filter (fun i => !dead i)).length : ℚ)) := by
    rw [runProtocol_eq pm sm ids secrets dead hnd hsym, toInt32_eq_self hlo hhi]
  refine ⟨hok, h1, ?_⟩
  have h2 : aggregateWithoutSecrecy secrets ids (ids.filter (fun i => !dead i))
      = (((ids.filter (fun i => !dead i)).map secrets).sum)
          / (((ids.filter (fun i => !dead i)).length : ℚ)) := by
    rw [aggregateWithoutSecrecy_eq, filter_mem_filter]
  rw [h1, h2]
  exact mean_error_bound secrets (ids.filter (fun i => !dead i)) (by omega)

/-- **C2** (witness): the amended statement for `ids = [1, 2, 3]` with
threshold 2, client 1 dropped between rounds 1 and 2 (2 ≥ t survivors), all
secrets 1, zero masks. -/
theorem c2_dropout_correctness_witness :
    runProtocolChecked (fun _ _ => 0) (fun _ => 0) [1, 2, 3] (fun _ => 1)
        (fun i => decide (i = 1)) 2
      = .ok (runProtocol (fun _ _ => 0) (fun _ => 0) [1, 2, 3] (fun _ => 1)
          (fun i => decide (i = 1)))
    ∧ runProtocol (fun _ _ => 0) (fun _ => 0) [1, 2, 3] (fun _ => 1)
        (fun i => decide (i = 1))
      = (((([1, 2, 3].filter (fun i => !(decide (i = 1)))).map
            (fun i => roundSecret ((fun _ : ℕ => (1 : ℚ)) i))).sum : ℤ) : ℚ)
          / 10 ^ 4 / ((([1, 2, 3].filter (fun i => !(decide (i = 1)))).length : ℚ))
    ∧ |runProtocol (fun _ _ => 0) (fun _ => 0) [1, 2, 3] (fun _ => 1)
          (fun i => decide (i = 1))
        - aggregateWithoutSecrecy (fun _ => 1) [1, 2, 3]
            ([1, 2, 3].filter (fun i => !(decide (i = 1))))| ≤ 1 / 20000 := by
  have hrs : roundSecret (1 : ℚ) = 10000 := by
    unfold roundSecret
    norm_num [round_eq]
  have h := c2_dropout_correctness (fun _ _ => 0) (fun _ => 0) [1, 2, 3] (fun _ => 1)
    (fun i => decide (i = 1)) 2 (by decide) (fun _ _ => rfl) (by decide) (by decide)
    (by simp [hrs]) (by simp [hrs])
  exact ⟨h.1, h.2.1, h.2.2⟩

/-- **C8**: every accumulator operation — the client's masked value, the
partial sum `S` over U₃, and the two reconstruction passes — yields a value
in the signed 32-bit range `[-2^31, 2^31)` (every store passes through the
4-byte `DataView`), and `S` is congruent modulo 2^32 to the unbounded integer
sum of the masked values it accumulates. -/
theorem c8_wrapping_32bit :
    ∀ (pm : Nat → Nat → Nat) (sm : Nat → Nat) (selfId : Nat) (secret : ℚ)
      (peers u2 u3 deadIds : List ℕ) (masked : Nat → Int) (agg : Int),
      (-2147483648 ≤ computeMaskedInputVector pm sm selfId secret peers
        ∧ computeMaskedInputVector pm sm selfId secret peers < 2147483648)
      ∧ (-2147483648 ≤ collectMaskedGradient masked u2 u3
        ∧ collectMaskedGradient masked u2 u3 < 2147483648)
      ∧ (-2147483648 ≤ reconstructDroppedClientsMask pm deadIds u2 u3 agg
        ∧ reconstructDroppedClientsMask pm deadIds u2 u3 agg < 2147483648)
      ∧ (-2147483648 ≤ reconstructAliveClientsMask sm u3 agg
        ∧ reconstructAliveClientsMask sm u3 agg < 2147483648)
      ∧ collectMaskedGradient masked u2 u3 % 4294967296
          = (((u2.filter (fun i => decide (i ∈ u3))).map masked).sum) % 4294967296 := by
  intro pm sm selfId secret peers u2 u3 deadIds masked agg
  refine ⟨⟨toInt32_lb _, toInt32_ub _⟩, ⟨?_, ?_⟩, ⟨?_, ?_⟩, ⟨?_, ?_⟩, ?_⟩
  · rw [collectMaskedGradient_eq]
    exact toInt32_lb _
  · rw [collectMaskedGradient_eq]
    exact toInt32_ub _
  · rw [reconstructDroppedClientsMask_eq]
    exact toInt32_lb _
  · rw [reconstructDroppedClientsMask_eq]
    exact toInt32_ub _
  · rw [reconstructAliveClientsMask_eq]
    exact toInt32_lb _
  · rw [reconstructAliveClientsMask_eq]
    exact toInt32_ub _
  · rw [collectMaskedGradient_eq]
    exact toInt32_emod _

/-- **C3**: for a pair `(i, j)` of clients both in U₃ (everyone having
completed round 1, symmetric DH), the shared first PRNG draw enters the
wrapped sum `S` exactly once with a plus sign — from the client with the
larger id — and once with a minus sign — from the client with the smaller
id — and consequently `S` is unchanged when the pair's mask is replaced by
zero: the pair contributes `0` modulo 2^32. -/
theorem c3_pairwise_cancellation (pm : Nat → Nat → Nat) (sm : Nat → Nat)
    (secrets : Nat → ℚ) (ids u3 : List ℕ) (i j : ℕ)
    (hnd : ids.Nodup) (hsym : ∀ a b, pm a b = pm b a)
    (hij : i ≠ j) (hi : i ∈ ids) (hj : j ∈ ids) (hiu : i ∈ u3) (hju : j ∈ u3) :
    (i < j → signedPair pm j i = (pm j i : Int) ∧ signedPair pm i j = -(pm i j : Int))
    ∧ collectMaskedGradient (maskedOf pm sm secrets ids) ids u3
      = collectMaskedGradient (maskedOf (zeroAtPair pm i j) sm secrets ids) ids u3 := by
  constructor
  · intro hlt
    constructor
    · unfold signedPair
      rw [if_pos hlt]
    · unfold signedPair
      rw [if_neg (Nat.lt_asymm hlt), if_pos hlt]
  have hAnd : (ids.filter (fun k => decide (k ∈ u3))).Nodup := hnd.filter _
  have hsub : ∀ k ∈ ids.filter (fun k => decide (k ∈ u3)), k ∈ ids :=
    fun k hk => (List.mem_filter.mp hk).1
  have hiA : i ∈ ids.filter (fun k => decide (k ∈ u3)) :=
    List.mem_filter.mpr ⟨hi, by simp [hiu]⟩
  have hjA : j ∈ ids.filter (fun k => decide (k ∈ u3)) :=
    List.mem_filter.mpr ⟨hj, by simp [hju]⟩
  have hmask : ∀ (q : Nat → Nat → Nat), ∀ k ∈ ids, maskedOf q sm secrets ids k
      = toInt32 (((ids.erase k).map (signedPair q k)).sum + roundSecret (secrets k)
          + (sm k : Int)) := by
    intro q k _
    unfold maskedOf
    exact computeMaskedInputVector_eq q sm k (secrets k) (ids.erase k)
      (not_mem_erase_self ids hnd k)
  -- the zeroed mask kills the pair's own signed terms
  have hzij : signedPair (zeroAtPair pm i j) i j = 0 := by
    have h0 : zeroAtPair pm i j i j = 0 := by
      unfold zeroAtPair
      rw [if_pos (Or.inl ⟨rfl, rfl⟩)]
    unfold signedPair
    rw [h0]
    simp
  have hzji : signedPair (zeroAtPair pm i j) j i = 0 := by
    have h0 : zeroAtPair pm i j j i = 0 := by
      unfold zeroAtPair
      rw [if_pos (Or.inr ⟨rfl, rfl⟩)]
    unfold signedPair
    rw [h0]
    simp
  -- everywhere else the two masks agree
  have hg0 : ∀ k l : ℕ, ¬(k = i ∧ l = j) → ¬(k = j ∧ l = i) →
      signedPair pm k l - signedPair (zeroAtPair pm i j) k l = 0 := by
    intro k l h1 h2
    have hm : zeroAtPair pm i j k l = pm k l := by
      unfold zeroAtPair
      rw [if_neg (by tauto)]
    unfold signedPair
    rw [hm]
    ring
  -- the double sum of the differences collapses to the pair's two terms
  have hdiffsum : (∑ k ∈ (ids.filter (fun k => decide (k ∈ u3))).toFinset,
        ∑ l ∈ ids.toFinset.erase k,
          (signedPair pm k l - signedPair (zeroAtPair pm i j) k l))
      = signedPair pm i j + signedPair pm j i := by
    have hinner_i : (∑ l ∈ ids.toFinset.erase i,
        (signedPair pm i l - signedPair (zeroAtPair pm i j) i l))
        = signedPair pm i j - signedPair (zeroAtPair pm i j) i j := by
      apply Finset.sum_eq_single_of_mem j
        (Finset.mem_erase.mpr ⟨fun h => hij h.symm, List.mem_toFinset.mpr hj⟩)
      intro l _ hlj
      exact hg0 i l (fun h => hlj h.2) (fun h => hij h.1)
    have hinner_j : (∑ l ∈ ids.toFinset.erase j,
        (signedPair pm j l - signedPair (zeroAtPair pm i j) j l))
        = signedPair pm j i - signedPair (zeroAtPair pm i j) j i := by
      apply Finset.sum_eq_single_of_mem i
        (Finset.mem_erase.mpr ⟨hij, List.mem_toFinset.mpr hi⟩)
      intro l _ hli
      exact hg0 j l (fun h => hij h.1.symm) (fun h => hli h.2)
    have hinner_other : ∀ k, k ≠ i → k ≠ j →
        (∑ l ∈ ids.toFinset.erase k,
          (signedPair pm k l - signedPair (zeroAtPair pm i j) k l)) = 0 := by
      intro k hki hkj
      apply Finset.sum_eq_zero
      intro l _
      exact hg0 k l (fun h => hki h.1) (fun h => hkj h.1)
    have hsubset : ({i, j} : Finset ℕ) ⊆ (ids.filter (fun k => decide (k ∈ u3))).toFinset := by
      intro x hx
      rcases Finset.mem_insert.mp hx with h | h
      · subst h
        exact List.mem_toFinset.mpr hiA
      · rw [Finset.mem_singleton] at h
        subst h
        exact List.mem_toFinset.mpr hjA
    have hpairsum : (∑ k ∈ (ids.filter (fun k => decide (k ∈ u3))).toFinset,
        ∑ l ∈ ids.toFinset.erase k,
          (signedPair pm k l - signedPair (zeroAtPair pm i j) k l))
        = ∑ k ∈ ({i, j} : Finset ℕ), ∑ l ∈ ids.toFinset.erase k,
          (signedPair pm k l - signedPair (zeroAtPair pm i j) k l) := by
      apply (Finset.sum_subset hsubset ?_).symm
      intro k _ hknot
      have hki : k ≠ i := fun h => hknot (by simp [h])
      have hkj : k ≠ j := fun h => hknot (by simp [h])
      exact hinner_other k hki hkj
    rw [hpairsum, Finset.sum_pair hij, hinner_i, hinner_j, hzij, hzji]
    ring
  -- the two pair terms cancel (antisymmetry under symmetric DH)
  have hcancel : signedPair pm i j + signedPair pm j i = 0 := by
    rw [signedPair_antisymm pm hsym i j]
    ring
  -- hence the two double pair sums agree
  have hps : ∀ (q : Nat → Nat → Nat) (k : ℕ),
      ((ids.erase k).map (signedPair q k)).sum
        = ∑ l ∈ ids.toFinset.erase k, signedPair q k l := by
    intro q k
    rw [← List.sum_toFinset _ (hnd.erase k), toFinset_erase_of_nodup ids hnd k]
  have hkey : ((ids.filter (fun k => decide (k ∈ u3))).map
        (fun k => ((ids.erase k).map (signedPair pm k)).sum)).sum
      = ((ids.filter (fun k => decide (k ∈ u3))).map
        (fun k => ((ids.erase k).map (signedPair (zeroAtPair pm i j) k)).sum)).sum := by
    rw [← List.sum_toFinset _ hAnd, ← List.sum_toFinset _ hAnd]
    have h1 : (∑ k ∈ (ids.filter (fun k => decide (k ∈ u3))).toFinset,
        ((ids.erase k).map (signedPair pm k)).sum)
        = ∑ k ∈ (ids.filter (fun k => decide (k ∈ u3))).toFinset,
          ∑ l ∈ ids.toFinset.erase k, signedPair pm k l :=
      Finset.sum_congr rfl (fun k _ => hps pm k)
    have h2 : (∑ k ∈ (ids.filter (fun k => decide (k ∈ u3))).toFinset,
        ((ids.erase k).map (signedPair (zeroAtPair pm i j) k)).sum)
        = ∑ k ∈ (ids.filter (fun k => decide (k ∈ u3))).toFinset,
          ∑ l ∈ ids.toFinset.erase k, signedPair (zeroAtPair pm i j) k l :=
      Finset.sum_congr rfl (fun k _ => hps (zeroAtPair pm i j) k)
    rw [h1, h2]
    have hsub2 : (∑ k ∈ (ids.filter (fun k => decide (k ∈ u3))).toFinset,
          ∑ l ∈ ids.toFinset.erase k, signedPair pm k l)
        - (∑ k ∈ (ids.filter (fun k => decide (k ∈ u3))).toFinset,
          ∑ l ∈ ids.toFinset.erase k, signedPair (zeroAtPair pm i j) k l)
        = ∑ k ∈ (ids.filter (fun k => decide (k ∈ u3))).toFinset,
          ∑ l ∈ ids.toFinset.erase k,
            (signedPair pm k l - signedPair (zeroAtPair pm i j) k l) := by
      rw [← Finset.sum_sub_distrib]
      exact Finset.sum_congr rfl (fun k _ => (Finset.sum_sub_distrib).symm)
    have := hdiffsum
    rw [hcancel] at this
    omega
  -- conclude on the wrapped sums
  rw [collectMaskedGradient_eq, collectMaskedGradient_eq]
  apply toInt32_congr
  have hXpm : (((ids.filter (fun k => decide (k ∈ u3))).map
        (maskedOf pm sm secrets ids)).sum) % 4294967296
      = (((ids.filter (fun k => decide (k ∈ u3))).map
        (fun k => ((ids.erase k).map (signedPair pm k)).sum + roundSecret (secrets k)
          + (sm k : Int))).sum) % 4294967296 :=
    list_sum_emod_congr _ _ _ (fun k hk => by
      rw [hmask pm k (hsub k hk), toInt32_emod])
  have hXpm2 : (((ids.filter (fun k => decide (k ∈ u3))).map
        (maskedOf (zeroAtPair pm i j) sm secrets ids)).sum) % 4294967296
      = (((ids.filter (fun k => decide (k ∈ u3))).map
        (fun k => ((ids.erase k).map (signedPair (zeroAtPair pm i j) k)).sum
          + roundSecret (secrets k) + (sm k : Int))).sum) % 4294967296 :=
    list_sum_emod_congr _ _ _ (fun k hk => by
      rw [hmask (zeroAtPair pm i j) k (hsub k hk), toInt32_emod])
  rw [hXpm, hXpm2]
  have hsplit : ∀ (q : Nat → Nat → Nat),
      (((ids.filter (fun k => decide (k ∈ u3))).map
        (fun k => ((ids.erase k).map (signedPair q k)).sum + roundSecret (secrets k)
          + (sm k : Int))).sum)
      = (((ids.filter (fun k => decide (k ∈ u3))).map
          (fun k => ((ids.erase k).map (signedPair q k)).sum)).sum)
        + (((ids.filter (fun k => decide (k ∈ u3))).map
          (fun k => roundSecret (secrets k))).sum)
        + (((ids.filter (fun k => decide (k ∈ u3))).map
          (fun k => (sm k : Int))).sum) := by
    intro q
    rw [list_sum_map_add (fun k => ((ids.erase k).map (signedPair q k)).sum
        + roundSecret (secrets k)) (fun k => (sm k : Int)),
      list_sum_map_add (fun k => ((ids.erase k).map (signedPair q k)).sum)
        (fun k => roundSecret (secrets k))]
  rw [hsplit pm, hsplit (zeroAtPair pm i j), hkey]

/-- **C3** (witness): the cancellation at the concrete run `ids = u3 = [1, 2]`
with the symmetric mask `pm a b = a + b`. -/
theorem c3_pairwise_cancellation_witness :
    ((1 : ℕ) < 2 → signedPair (fun a b => a + b) 2 1 = ((2 + 1 : ℕ) : Int)
      ∧ signedPair (fun a b => a + b) 1 2 = -((1 + 2 : ℕ) : Int))
    ∧ collectMaskedGradient
        (maskedOf (fun a b => a + b) (fun _ => 0) (fun _ => 0) [1, 2]) [1, 2] [1, 2]
      = collectMaskedGradient
        (maskedOf (zeroAtPair (fun a b => a + b) 1 2) (fun _ => 0) (fun _ => 0) [1, 2])
        [1, 2] [1, 2] :=
  c3_pairwise_cancellation (fun a b => a + b) (fun _ => 0) (fun _ => 0) [1, 2] [1, 2] 1 2
    (by decide) (fun a b => Nat.add_comm a b) (by decide) (by decide) (by decide)
    (by decide) (by decide)

end SecureAgg
